import Mathlib

/-!
Verification of the `Issue`/`IssueGroup` doubly-linked issue sequence of
`src/Model/Issue.h` (TrenchBroom).  The header declares the linkage fields
`m_previous`/`m_next` and the operations `insertAfter`, `insertBefore`,
`replaceWith`, `remove` and `mergeWith`; the method bodies are not part of the
provided sources, so each operation below is modelled from the specification's
description of its pointer rewiring and failure semantics.

Nodes are identified by natural-number addresses; a null pointer is `none`.
A heap assigns to every address its current linkage state.  The merge
protocol (`mergeWith` on issues and groups, and the driver's
`findFirstMatch`) is modelled separately on a value type `Entity`.
-/

namespace TrenchBroom
namespace Model

/-- Modelled from the spec: the linkage state of one `Issue` node, i.e. the
fields `m_previous` and `m_next` of `src/Model/Issue.h`. -/
structure Node where
  prev : Option Nat
  next : Option Nat
deriving DecidableEq

/-- A heap maps every node address to its linkage state. -/
def Heap : Type := Nat → Node

/-- Pointwise update of one node's state. -/
def update (h : Heap) (i : Nat) (v : Node) : Heap :=
  fun j => if j = i then v else h j

/-- Assignment `i->m_previous = p`. -/
def setPrev (h : Heap) (i : Nat) (p : Option Nat) : Heap :=
  update h i { h i with prev := p }

/-- Assignment `i->m_next = n`. -/
def setNext (h : Heap) (i : Nat) (n : Option Nat) : Heap :=
  update h i { h i with next := n }

/-- The heap in which every node is unlinked. -/
def emptyHeap : Heap := fun _ => ⟨none, none⟩

namespace Issue

/-- Modelled from the spec: `Issue::insertAfter(previous)` — splices `self`
into the sequence immediately after `target`.  Fails (fatal programming
error, modelled as `none`) if `self` is already linked; otherwise sets
`self.prev := target`, `self.next := target.next`, repoints the old
successor's back link at `self`, and sets `target.next := self`. -/
def insertAfter (h : Heap) (self target : Nat) : Option Heap :=
  if (h self).prev = none ∧ (h self).next = none then
    let h1 := setPrev h self (some target)
    let h2 := setNext h1 self ((h1 target).next)
    let h3 := match (h2 self).next with
      | some n => setPrev h2 n (some self)
      | none => h2
    some (setNext h3 target (some self))
  else none

/-- Modelled from the spec: `Issue::insertBefore(next)` — symmetric splice of
`self` immediately before `target`; fails if `self` is already linked. -/
def insertBefore (h : Heap) (self target : Nat) : Option Heap :=
  if (h self).prev = none ∧ (h self).next = none then
    let h1 := setNext h self (some target)
    let h2 := setPrev h1 self ((h1 target).prev)
    let h3 := match (h2 self).prev with
      | some p => setNext h2 p (some self)
      | none => h2
    some (setPrev h3 target (some self))
  else none

/-- Modelled from the spec: `Issue::remove()` — fails (fatal programming
error, modelled as `none`) if `self` is unlinked; otherwise repairs the
neighbour links so the sequence stays contiguous and nulls `self`'s own
links.  The node itself stays in the heap (it is not destroyed). -/
def remove (h : Heap) (self : Nat) : Option Heap :=
  if (h self).prev = none ∧ (h self).next = none then none
  else
    let h1 := match (h self).prev with
      | some p => setNext h p ((h self).next)
      | none => h
    let h2 := match (h1 self).next with
      | some n => setPrev h1 n ((h1 self).prev)
      | none => h1
    some (update h2 self ⟨none, none⟩)

/-- Modelled from the spec: `Issue::replaceWith(issue)` — substitutes `other`
for `self` at the same sequence position.  Fails (structural misuse) if the
replacement is already linked; otherwise `other` inherits `self`'s links, the
neighbours are repointed at `other`, and `self` becomes unlinked. -/
def replaceWith (h : Heap) (self other : Nat) : Option Heap :=
  if (h other).prev = none ∧ (h other).next = none then
    let h1 := setPrev h other ((h self).prev)
    let h2 := setNext h1 other ((h1 self).next)
    let h3 := match (h2 self).prev with
      | some p => setNext h2 p (some other)
      | none => h2
    let h4 := match (h3 self).next with
      | some n => setPrev h3 n (some other)
      | none => h3
    some (update h4 self ⟨none, none⟩)
  else none

end Issue

/-- Representation predicate for a doubly-linked segment: `dll h p l` says
the nodes listed in `l` form, in order, the remainder of a sequence whose
first node's back pointer is `p`, with consecutive nodes mutually linked and
the last node's `next` null. -/
def dll (h : Heap) : Option Nat → List Nat → Prop
  | _, [] => True
  | p, i :: rest => (h i).prev = p ∧ (h i).next = rest.head? ∧ dll h (some i) rest

instance dllDec (h : Heap) : (p : Option Nat) → (l : List Nat) → Decidable (dll h p l)
  | _, [] => isTrue trivial
  | p, i :: rest =>
      haveI : Decidable (dll h (some i) rest) := dllDec h (some i) rest
      decidable_of_iff ((h i).prev = p ∧ (h i).next = rest.head? ∧ dll h (some i) rest)
        Iff.rfl

/-- A heap state represents the issue sequence `l` when the nodes of `l` are
distinct and doubly linked in order, with the head's `prev` and the last
node's `next` null. -/
def repSeq (h : Heap) (l : List Nat) : Prop := l.Nodup ∧ dll h none l

instance (h : Heap) (l : List Nat) : Decidable (repSeq h l) :=
  inferInstanceAs (Decidable (_ ∧ _))

/-- The linkage invariant at one node, exactly as the spec states it:
`previous` is null or `previous.next` is the node itself, and symmetrically
for `next`. -/
def linkInv (h : Heap) (e : Nat) : Prop :=
  (match (h e).prev with
   | none => True
   | some p => (h p).next = some e) ∧
  (match (h e).next with
   | none => True
   | some n => (h n).prev = some e)

instance (h : Heap) (e : Nat) : Decidable (linkInv h e) := by
  unfold linkInv
  cases (h e).prev <;> cases (h e).next <;> exact inferInstance

/-- Fuel-bounded traversal following `next` pointers from a starting
pointer; used to state acyclicity. -/
def walk (h : Heap) : Nat → Option Nat → List Nat
  | 0, _ => []
  | _ + 1, none => []
  | fuel + 1, some i => i :: walk h fuel ((h i).next)

/-- Modelled from the spec: the content of an issue entity as far as the merge
protocol is concerned — either a plain issue with a cause key, or a group
(`IssueGroup`) with a cause key and the list of members of its internal
sub-sequence. -/
inductive Entity where
  | issue (cause : Nat)
  | group (cause : Nat) (members : List Entity)

/-- The cause/site key of an entity; a group's cause is the shared cause of
its members. -/
def Entity.cause : Entity → Nat
  | .issue c => c
  | .group c _ => c

/-- Whether an entity is a group. -/
def Entity.isGroup : Entity → Bool
  | .issue _ => false
  | .group _ _ => true

/-- Modelled from the spec: what a group absorbs when merging a compatible
candidate — a plain issue contributes itself, a group contributes its internal
members (nested groups are flattened). -/
def Entity.absorbedMembers : Entity → List Entity
  | .issue c => [.issue c]
  | .group _ ms => ms

/-- Modelled from the spec: `Issue::mergeWith` (base class) always returns
null, signalling "not mergeable by default"; `IssueGroup::mergeWith` checks
cause compatibility, appends the candidate (or, for a group candidate, its
internal members) onto the internal sub-sequence and returns itself. -/
def Entity.mergeWith : Entity → Entity → Option Entity
  | .issue _, _ => none
  | .group c ms, other =>
      if other.cause = c then some (.group c (ms ++ other.absorbedMembers))
      else none

/-- Modelled from the spec: the driver's `findFirstMatch` — a linear scan in
sequence order, returning the first existing entity whose `mergeWith` accepts
the candidate, or null. -/
def findFirstMatch : List Entity → Entity → Option Entity
  | [], _ => none
  | e :: rest, cand =>
      if (e.mergeWith cand).isSome then some e else findFirstMatch rest cand

/-- Modelled from the spec: the sequence states the validation driver can
reach — starting from the empty heap with an empty sequence or with a single
fresh head entity, and applying `insertAfter`, `insertBefore`, `remove` and
`replaceWith` at members of the sequence.  The list records the sequence
order, the heap the linkage state. -/
inductive Reachable : Heap → List Nat → Prop where
  | empty : Reachable emptyHeap []
  | head (x : Nat) : Reachable emptyHeap [x]
  | insAfter {h h' : Heap} {l1 l2 : List Nat} {e t : Nat} :
      Reachable h (l1 ++ t :: l2) → e ∉ l1 ++ t :: l2 →
      Issue.insertAfter h e t = some h' → Reachable h' (l1 ++ t :: e :: l2)
  | insBefore {h h' : Heap} {l1 l2 : List Nat} {e t : Nat} :
      Reachable h (l1 ++ t :: l2) → e ∉ l1 ++ t :: l2 →
      Issue.insertBefore h e t = some h' → Reachable h' (l1 ++ e :: t :: l2)
  | del {h h' : Heap} {l1 l2 : List Nat} {e : Nat} :
      Reachable h (l1 ++ e :: l2) →
      Issue.remove h e = some h' → Reachable h' (l1 ++ l2)
  | replace {h h' : Heap} {l1 l2 : List Nat} {s o : Nat} :
      Reachable h (l1 ++ s :: l2) → o ∉ l1 ++ s :: l2 →
      Issue.replaceWith h s o = some h' → Reachable h' (l1 ++ o :: l2)

/-- A concrete three-node heap representing the sequence `[0, 1, 2]`;
used to evaluate the theorems on explicit inputs. -/
def heap3 : Heap := fun x =>
  if x = 0 then ⟨none, some 1⟩
  else if x = 1 then ⟨some 0, some 2⟩
  else if x = 2 then ⟨some 1, none⟩
  else ⟨none, none⟩

theorem update_apply (h : Heap) (i j : Nat) (v : Node) :
    update h i v j = if j = i then v else h j := rfl

theorem setPrev_apply (h : Heap) (i j : Nat) (p : Option Nat) :
    setPrev h i p j = if j = i then { h i with prev := p } else h j := rfl

theorem setNext_apply (h : Heap) (i j : Nat) (n : Option Nat) :
    setNext h i n j = if j = i then { h i with next := n } else h j := rfl

namespace Issue

theorem insertAfter_none_of_linked (h : Heap) (e t : Nat)
    (hl : ¬((h e).prev = none ∧ (h e).next = none)) :
    insertAfter h e t = none := by
  unfold insertAfter; rw [if_neg hl]

theorem unlinked_of_insertAfter_some (h : Heap) (e t : Nat) (h' : Heap)
    (hs : insertAfter h e t = some h') :
    (h e).prev = none ∧ (h e).next = none := by
  by_contra hc
  rw [insertAfter_none_of_linked h e t hc] at hs
  exact Option.noConfusion hs

theorem insertAfter_eq_some (h : Heap) (e t : Nat)
    (hp : (h e).prev = none) (hn : (h e).next = none)
    (het : e ≠ t) (hte : (h t).next ≠ some e) (htt : (h t).next ≠ some t) :
    insertAfter h e t = some (fun x =>
      if x = e then ⟨some t, (h t).next⟩
      else if x = t then ⟨(h t).prev, some e⟩
      else if (h t).next = some x then ⟨some e, (h x).next⟩
      else h x) := by
  have het' : ¬(t = e) := fun hh => het hh.symm
  unfold insertAfter
  rw [if_pos ⟨hp, hn⟩]
  simp only [setPrev_apply, setNext_apply, update_apply, if_pos rfl, het', if_false,
    eq_self_iff_true, if_true]
  cases htn : (h t).next with
  | none =>
      simp only [htn]
      congr 1
      funext x
      by_cases hxe : x = e
      · subst hxe; simp [setNext_apply, setPrev_apply, update_apply, het', het]
      · by_cases hxt : x = t
        · subst hxt; simp [setNext_apply, setPrev_apply, update_apply, hxe]
        · simp [setNext_apply, setPrev_apply, update_apply, hxe, hxt]
  | some n =>
      have hne : ¬(n = e) := fun hh => hte (hh ▸ htn)
      have hnt : ¬(n = t) := fun hh => htt (hh ▸ htn)
      simp only [htn]
      congr 1
      funext x
      by_cases hxe : x = e
      · subst hxe
        have hen : ¬(x = n) := fun hh => hne hh.symm
        simp [setNext_apply, setPrev_apply, update_apply, het', het, hne, hen]
      · by_cases hxt : x = t
        · subst hxt
          have htn' : ¬(x = n) := fun hh => hnt hh.symm
          simp [setNext_apply, setPrev_apply, update_apply, hxe, hnt, htn']
        · by_cases hxn : x = n
          · subst hxn; simp [setNext_apply, setPrev_apply, update_apply, hxe, hxt, htn]
          · have : ¬(some n = some x) := fun hh => hxn (Option.some.inj hh).symm
            simp [setNext_apply, setPrev_apply, update_apply, hxe, hxt, hxn, this]

theorem insertBefore_none_of_linked (h : Heap) (e t : Nat)
    (hl : ¬((h e).prev = none ∧ (h e).next = none)) :
    insertBefore h e t = none := by
  unfold insertBefore; rw [if_neg hl]

theorem unlinked_of_insertBefore_some (h : Heap) (e t : Nat) (h' : Heap)
    (hs : insertBefore h e t = some h') :
    (h e).prev = none ∧ (h e).next = none := by
  by_contra hc
  rw [insertBefore_none_of_linked h e t hc] at hs
  exact Option.noConfusion hs

theorem insertBefore_eq_some (h : Heap) (e t : Nat)
    (hp : (h e).prev = none) (hn : (h e).next = none)
    (het : e ≠ t) (hte : (h t).prev ≠ some e) (htt : (h t).prev ≠ some t) :
    insertBefore h e t = some (fun x =>
      if x = e then ⟨(h t).prev, some t⟩
      else if x = t then ⟨some e, (h t).next⟩
      else if (h t).prev = some x then ⟨(h x).prev, some e⟩
      else h x) := by
  have het' : ¬(t = e) := fun hh => het hh.symm
  unfold insertBefore
  rw [if_pos ⟨hp, hn⟩]
  simp only [setPrev_apply, setNext_apply, update_apply, if_pos rfl, het', if_false,
    eq_self_iff_true, if_true]
  cases htn : (h t).prev with
  | none =>
      simp only [htn]
      congr 1
      funext x
      by_cases hxe : x = e
      · subst hxe; simp [setNext_apply, setPrev_apply, update_apply, het', het]
      · by_cases hxt : x = t
        · subst hxt; simp [setNext_apply, setPrev_apply, update_apply, hxe]
        · simp [setNext_apply, setPrev_apply, update_apply, hxe, hxt]
  | some p =>
      have hne : ¬(p = e) := fun hh => hte (hh ▸ htn)
      have hnt : ¬(p = t) := fun hh => htt (hh ▸ htn)
      simp only [htn]
      congr 1
      funext x
      by_cases hxe : x = e
      · subst hxe
        have hen : ¬(x = p) := fun hh => hne hh.symm
        simp [setNext_apply, setPrev_apply, update_apply, het', het, hne, hen]
      · by_cases hxt : x = t
        · subst hxt
          have htn' : ¬(x = p) := fun hh => hnt hh.symm
          simp [setNext_apply, setPrev_apply, update_apply, hxe, hnt, htn']
        · by_cases hxn : x = p
          · subst hxn; simp [setNext_apply, setPrev_apply, update_apply, hxe, hxt, htn]
          · have : ¬(some p = some x) := fun hh => hxn (Option.some.inj hh).symm
            simp [setNext_apply, setPrev_apply, update_apply, hxe, hxt, hxn, this]

theorem remove_none_of_unlinked (h : Heap) (e : Nat)
    (hu : (h e).prev = none ∧ (h e).next = none) : remove h e = none := by
  unfold remove; rw [if_pos hu]

theorem linked_of_remove_some (h : Heap) (e : Nat) (h' : Heap)
    (hs : remove h e = some h') : ¬((h e).prev = none ∧ (h e).next = none) := by
  intro hc
  rw [remove_none_of_unlinked h e hc] at hs
  exact Option.noConfusion hs

theorem remove_eq_some (h : Heap) (e : Nat)
    (hl : ¬((h e).prev = none ∧ (h e).next = none))
    (hpe : (h e).prev ≠ some e) (hne : (h e).next ≠ some e)
    (hpn : ∀ p n, (h e).prev = some p → (h e).next = some n → p ≠ n) :
    remove h e = some (fun x =>
      if x = e then ⟨none, none⟩
      else if (h e).prev = some x then ⟨(h x).prev, (h e).next⟩
      else if (h e).next = some x then ⟨(h e).prev, (h x).next⟩
      else h x) := by
  unfold remove
  rw [if_neg hl]
  cases hpv : (h e).prev with
  | none =>
      cases hnv : (h e).next with
      | none => exact absurd ⟨hpv, hnv⟩ hl
      | some n =>
          have hn' : ¬(n = e) := fun hh => hne (hh ▸ hnv)
          simp only [setPrev_apply, setNext_apply, update_apply, hpv, hnv]
          congr 1
          funext x
          simp only [setPrev_apply, setNext_apply, update_apply]
          split_ifs <;> simp_all
  | some p =>
      have hp' : ¬(p = e) := fun hh => hpe (hh ▸ hpv)
      have hep : ¬(e = p) := fun hh => hp' hh.symm
      cases hnv : (h e).next with
      | none =>
          simp only [setPrev_apply, setNext_apply, update_apply, hpv, hnv, hep, if_false]
          congr 1
          funext x
          simp only [setPrev_apply, setNext_apply, update_apply]
          split_ifs <;> simp_all
      | some n =>
          have hn' : ¬(n = e) := fun hh => hne (hh ▸ hnv)
          have hpn' : ¬(p = n) := hpn p n hpv hnv
          have hnp : ¬(n = p) := fun hh => hpn' hh.symm
          simp only [setPrev_apply, setNext_apply, update_apply, hpv, hnv, hep, if_false]
          congr 1
          funext x
          simp only [setPrev_apply, setNext_apply, update_apply]
          split_ifs <;> simp_all

theorem replaceWith_none_of_linked (h : Heap) (s o : Nat)
    (hl : ¬((h o).prev = none ∧ (h o).next = none)) :
    replaceWith h s o = none := by
  unfold replaceWith; rw [if_neg hl]

theorem unlinked_of_replaceWith_some (h : Heap) (s o : Nat) (h' : Heap)
    (hs : replaceWith h s o = some h') :
    (h o).prev = none ∧ (h o).next = none := by
  by_contra hc
  rw [replaceWith_none_of_linked h s o hc] at hs
  exact Option.noConfusion hs

theorem replaceWith_eq_some (h : Heap) (s o : Nat)
    (hop : (h o).prev = none) (hon : (h o).next = none) (hso : s ≠ o)
    (hps : (h s).prev ≠ some s) (hpo : (h s).prev ≠ some o)
    (hns : (h s).next ≠ some s) (hno : (h s).next ≠ some o)
    (hpn : ∀ p n, (h s).prev = some p → (h s).next = some n → p ≠ n) :
    replaceWith h s o = some (fun x =>
      if x = s then ⟨none, none⟩
      else if x = o then ⟨(h s).prev, (h s).next⟩
      else if (h s).prev = some x then ⟨(h x).prev, some o⟩
      else if (h s).next = some x then ⟨some o, (h x).next⟩
      else h x) := by
  have hos : ¬(o = s) := fun hh => hso hh.symm
  unfold replaceWith
  rw [if_pos ⟨hop, hon⟩]
  cases hpv : (h s).prev with
  | none =>
      cases hnv : (h s).next with
      | none =>
          simp only [setPrev_apply, setNext_apply, update_apply, hpv, hnv, hos, hso, if_false]
          congr 1
          funext x
          simp only [setPrev_apply, setNext_apply, update_apply, hpv, hnv, hos, hso]
          split_ifs <;> simp_all
      | some n =>
          have hn1 : ¬(n = s) := fun hh => hns (hh ▸ hnv)
          have hn2 : ¬(n = o) := fun hh => hno (hh ▸ hnv)
          simp only [setPrev_apply, setNext_apply, update_apply, hpv, hnv, hos, hso, if_false]
          congr 1
          funext x
          simp only [setPrev_apply, setNext_apply, update_apply, hpv, hnv, hos, hso]
          split_ifs <;> simp_all
  | some p =>
      have hp1 : ¬(p = s) := fun hh => hps (hh ▸ hpv)
      have hp2 : ¬(p = o) := fun hh => hpo (hh ▸ hpv)
      have hsp : ¬(s = p) := fun hh => hp1 hh.symm
      cases hnv : (h s).next with
      | none =>
          simp only [setPrev_apply, setNext_apply, update_apply, hpv, hnv, hos, hso, hsp, if_false]
          congr 1
          funext x
          simp only [setPrev_apply, setNext_apply, update_apply, hpv, hnv, hos, hso]
          split_ifs <;> simp_all
      | some n =>
          have hn1 : ¬(n = s) := fun hh => hns (hh ▸ hnv)
          have hn2 : ¬(n = o) := fun hh => hno (hh ▸ hnv)
          have hpn' : ¬(p = n) := hpn p n hpv hnv
          have hnp : ¬(n = p) := fun hh => hpn' hh.symm
          simp only [setPrev_apply, setNext_apply, update_apply, hpv, hnv, hos, hso, hsp, if_false]
          congr 1
          funext x
          simp only [setPrev_apply, setNext_apply, update_apply, hpv, hnv, hos, hso]
          split_ifs <;> simp_all

end Issue

theorem dll_congr (h h' : Heap) :
    ∀ (l : List Nat) (p : Option Nat), dll h p l → (∀ x ∈ l, h' x = h x) →
      dll h' p l := by
  intro l
  induction l with
  | nil => intro p _ _; trivial
  | cons i rest ih =>
      intro p hd hag
      obtain ⟨h1, h2, h3⟩ := hd
      have hi : h' i = h i := hag i (by simp)
      exact ⟨hi ▸ h1, hi ▸ h2, ih (some i) h3 (fun x hx => hag x (by simp [hx]))⟩

theorem dll_next_eq (h : Heap) (t : Nat) :
    ∀ (l1 : List Nat) (p : Option Nat) (l2 : List Nat),
      dll h p (l1 ++ t :: l2) → (h t).next = l2.head? := by
  intro l1
  induction l1 with
  | nil => intro p l2 hd; exact hd.2.1
  | cons a l1' ih => intro p l2 hd; exact ih (some a) l2 hd.2.2

theorem dll_prev_eq (h : Heap) (t : Nat) :
    ∀ (l1 : List Nat) (p : Option Nat) (l2 : List Nat),
      dll h p (l1 ++ t :: l2) →
      (h t).prev = (match l1.getLast? with | some a => some a | none => p) := by
  intro l1
  induction l1 with
  | nil => intro p l2 hd; exact hd.1
  | cons a l1' ih =>
      intro p l2 hd
      have := ih (some a) l2 hd.2.2
      cases hc : l1' with
      | nil => subst hc; simpa using this
      | cons b l1'' =>
          subst hc
          simpa [List.getLast?_cons_cons] using this

theorem dll_mem_prev (h : Heap) (t : Nat) :
    ∀ (l1 : List Nat) (l2 : List Nat),
      dll h none (l1 ++ t :: l2) →
      (h t).prev = none ∨ ∃ a ∈ l1, (h t).prev = some a := by
  intro l1 l2 hd
  have := dll_prev_eq h t l1 none l2 hd
  cases hc : l1.getLast? with
  | none => left; rw [this, hc]
  | some a =>
      right
      exact ⟨a, List.mem_of_getLast?_eq_some hc, by rw [this, hc]⟩

/-- Every node of a represented sequence satisfies the spec's linkage
invariant. -/
theorem dll_linkInv (h : Heap) :
    ∀ (l : List Nat) (p : Option Nat), dll h p l →
      (∀ a, p = some a → (h a).next = l.head?) →
      ∀ x ∈ l, linkInv h x := by
  intro l
  induction l with
  | nil => intro p _ _ x hx; exact absurd hx (List.not_mem_nil x)
  | cons i rest ih =>
      intro p hd hback x hx
      obtain ⟨h1, h2, h3⟩ := hd
      rcases List.mem_cons.mp hx with hxi | hxr
      · subst hxi
        constructor
        · rw [h1]
          cases hp : p with
          | none => trivial
          | some a => simpa using hback a hp
        · rw [h2]
          cases hr : rest with
          | nil => trivial
          | cons j rest' =>
              have := (hr ▸ h3 : dll h (some x) (j :: rest'))
              simpa using this.1
      · exact ih (some i) h3 (fun a ha => (Option.some.inj ha) ▸ h2) x hxr

/-- A represented sequence is acyclic: the fuelled traversal from the head
recovers exactly the sequence, with any surplus fuel left unused. -/
theorem dll_walk (h : Heap) :
    ∀ (l : List Nat) (p : Option Nat), dll h p l →
      ∀ k, walk h (l.length + k) l.head? = l := by
  intro l
  induction l with
  | nil =>
      intro p _ k
      cases k with
      | zero => rfl
      | succ k' => rfl
  | cons i rest ih =>
      intro p hd k
      obtain ⟨h1, h2, h3⟩ := hd
      have : walk h (rest.length + k) rest.head? = rest := ih (some i) h3 k
      simp only [List.head?_cons, List.length_cons]
      rw [show rest.length + 1 + k = (rest.length + k) + 1 by omega]
      show i :: walk h (rest.length + k) (h i).next = i :: rest
      rw [h2, this]

/-- Splicing a fresh node `e` immediately after a member `t` preserves the
doubly-linked representation, with `e` taking the position after `t`. -/
theorem dll_splice_after (h h' : Heap) (e t : Nat)
    (he : h' e = ⟨some t, (h t).next⟩)
    (ht : h' t = ⟨(h t).prev, some e⟩)
    (hn : ∀ n, (h t).next = some n → h' n = ⟨some e, (h n).next⟩) :
    ∀ (l1 : List Nat) (p : Option Nat) (l2 : List Nat),
      dll h p (l1 ++ t :: l2) → (l1 ++ t :: l2).Nodup → e ∉ l1 ++ t :: l2 →
      (∀ x, x ∈ l1 ++ t :: l2 → x ≠ t → (h t).next ≠ some x → h' x = h x) →
      dll h' p (l1 ++ t :: e :: l2) := by
  intro l1
  induction l1 with
  | nil =>
      intro p l2 hd hnd hfresh hother
      obtain ⟨h1, h2, h3⟩ := hd
      refine ⟨by rw [ht]; exact h1, by rw [ht]; rfl, by rw [he], by rw [he]; exact h2, ?_⟩
      cases l2 with
      | nil => trivial
      | cons n l2' =>
          obtain ⟨g1, g2, g3⟩ := h3
          have hnn : h' n = ⟨some e, (h n).next⟩ := hn n (by rw [h2]; rfl)
          refine ⟨by rw [hnn], by rw [hnn]; exact g2, ?_⟩
          apply dll_congr h h' l2' (some n) g3
          intro x hx
          have hnd' := List.nodup_cons.mp hnd
          apply hother x (by simp [hx])
          · intro hxt
            exact hnd'.1 (hxt ▸ (by simp [hx] : x ∈ n :: l2'))
          · rw [h2]
            simp only [List.head?_cons]
            intro hc
            exact (List.nodup_cons.mp hnd'.2).1 ((Option.some.inj hc) ▸ hx)
  | cons a l1' ih =>
      intro p l2 hd hnd hfresh hother
      obtain ⟨h1, h2, h3⟩ := hd
      have hnd' := List.nodup_cons.mp hnd
      have hat : a ≠ t := fun hh => hnd'.1 (hh ▸ (by simp : t ∈ l1' ++ t :: l2))
      have htnext : (h t).next = l2.head? := dll_next_eq h t l1' (some a) l2 h3
      have ha' : h' a = h a := by
        apply hother a (by simp) hat
        rw [htnext]
        cases l2 with
        | nil => simp
        | cons n l2' =>
            simp only [List.head?_cons]
            intro hc
            exact hnd'.1 ((Option.some.inj hc) ▸ (by simp : n ∈ l1' ++ t :: n :: l2'))
      refine ⟨by rw [ha']; exact h1, ?_, ?_⟩
      · rw [ha', h2]
        cases l1' <;> rfl
      · exact ih (some a) l2 h3 hnd'.2 (fun hh => hfresh (by simp [hh]))
          (fun x hx hxt hxn => hother x (by simp [hx]) hxt hxn)

/-- Splicing a fresh node `e` immediately before a member `t` preserves the
doubly-linked representation, with `e` taking the position before `t`. -/
theorem dll_splice_before (h h' : Heap) (e t : Nat)
    (he : h' e = ⟨(h t).prev, some t⟩)
    (ht : h' t = ⟨some e, (h t).next⟩)
    (hpr : ∀ a, (h t).prev = some a → h' a = ⟨(h a).prev, some e⟩) :
    ∀ (l1 : List Nat) (p : Option Nat) (l2 : List Nat),
      dll h p (l1 ++ t :: l2) → (l1 ++ t :: l2).Nodup → e ∉ l1 ++ t :: l2 →
      (∀ a, p = some a → a ∉ l1 ++ t :: l2) →
      (∀ x, x ∈ l1 ++ t :: l2 → x ≠ t → (h t).prev ≠ some x → h' x = h x) →
      dll h' p (l1 ++ e :: t :: l2) := by
  intro l1
  induction l1 with
  | nil =>
      intro p l2 hd hnd hfresh hpout hother
      obtain ⟨h1, h2, h3⟩ := hd
      refine ⟨by simp [he, h1], by simp [he], by simp [ht], by simp [ht, h2], ?_⟩
      apply dll_congr h h' l2 (some t) h3
      intro x hx
      have hnd' := List.nodup_cons.mp hnd
      apply hother x (by simp [hx])
      · intro hxt; exact hnd'.1 (hxt ▸ hx)
      · rw [h1]; intro hc; exact hpout x hc (by simp [hx])
  | cons a l1' ih =>
      intro p l2 hd hnd hfresh hpout hother
      obtain ⟨h1, h2, h3⟩ := hd
      have hnd' := List.nodup_cons.mp hnd
      have hat : a ≠ t := fun hh => hnd'.1 (hh ▸ (by simp : t ∈ l1' ++ t :: l2))
      cases hl1 : l1' with
      | nil =>
          subst hl1
          have hta : (h t).prev = some a := h3.1
          have ha' : h' a = ⟨(h a).prev, some e⟩ := hpr a hta
          refine ⟨by simp [ha', h1], by simp [ha'], ?_⟩
          refine ⟨by simp [he, hta], by simp [he], by simp [ht], by simp [ht, h3.2.1], ?_⟩
          apply dll_congr h h' l2 (some t) h3.2.2
          intro x hx
          apply hother x (by simp [hx])
          · intro hxt
            exact (List.nodup_cons.mp hnd'.2).1 (hxt ▸ hx)
          · rw [hta]; intro hc
            exact hnd'.1 ((Option.some.inj hc) ▸ (by simp [hx] : x ∈ [] ++ t :: l2))
      | cons b l1'' =>
          subst hl1
          have htprev := dll_prev_eq h t (b :: l1'') (some a) l2 h3
          have ha' : h' a = h a := by
            apply hother a (by simp) hat
            rw [htprev]
            cases hgl : (b :: l1'').getLast? with
            | none => simp at hgl
            | some c =>
                simp only [hgl]
                intro hc
                have hca : c = a := Option.some.inj hc
                have hcm : c ∈ b :: l1'' := List.mem_of_getLast?_eq_some hgl
                exact hnd'.1 (hca ▸ (List.mem_append_left _ hcm))
          refine ⟨by simp [ha', h1], by simp [ha', h2], ?_⟩
          exact ih (some a) l2 h3 hnd'.2 (fun hh => hfresh (List.mem_cons_of_mem a hh))
            (fun x hc => (Option.some.inj hc) ▸ hnd'.1)
            (fun x hx hxt hxp => hother x (List.mem_cons_of_mem a hx) hxt hxp)

/-- Removing the member `e` from a represented sequence repairs the segment:
the remaining nodes, in their old order, again form a doubly-linked
sequence. -/
theorem dll_unsplice (h h' : Heap) (e : Nat)
    (hpr : ∀ a, (h e).prev = some a → h' a = ⟨(h a).prev, (h e).next⟩)
    (hnx : ∀ n, (h e).next = some n → h' n = ⟨(h e).prev, (h n).next⟩) :
    ∀ (l1 : List Nat) (p : Option Nat) (l2 : List Nat),
      dll h p (l1 ++ e :: l2) → (l1 ++ e :: l2).Nodup →
      (∀ a, p = some a → a ∉ l1 ++ e :: l2) →
      (∀ x, x ∈ l1 ++ e :: l2 → x ≠ e → (h e).prev ≠ some x → (h e).next ≠ some x →
        h' x = h x) →
      dll h' p (l1 ++ l2) := by
  intro l1
  induction l1 with
  | nil =>
      intro p l2 hd hnd hpout hother
      obtain ⟨h1, h2, h3⟩ := hd
      cases l2 with
      | nil => trivial
      | cons n l2' =>
          obtain ⟨g1, g2, g3⟩ := h3
          have hnn : h' n = ⟨(h e).prev, (h n).next⟩ := hnx n (by rw [h2]; rfl)
          have hnd' := List.nodup_cons.mp hnd
          refine ⟨by simp [hnn, h1], by simp [hnn, g2], ?_⟩
          apply dll_congr h h' l2' (some n) g3
          intro x hx
          apply hother x (by simp [hx])
          · intro hxe; exact hnd'.1 (hxe ▸ (by simp [hx] : x ∈ n :: l2'))
          · rw [h1]; intro hc; exact hpout x hc (by simp [hx])
          · rw [h2]
            simp only [List.head?_cons]
            intro hc
            exact (List.nodup_cons.mp hnd'.2).1 ((Option.some.inj hc) ▸ hx)
  | cons a l1' ih =>
      intro p l2 hd hnd hpout hother
      obtain ⟨h1, h2, h3⟩ := hd
      have hnd' := List.nodup_cons.mp hnd
      have hae : a ≠ e := fun hh => hnd'.1 (hh ▸ (by simp : e ∈ l1' ++ e :: l2))
      have henext : (h e).next = l2.head? := dll_next_eq h e l1' (some a) l2 h3
      cases hl1 : l1' with
      | nil =>
          subst hl1
          have hea : (h e).prev = some a := h3.1
          have ha' : h' a = ⟨(h a).prev, (h e).next⟩ := hpr a hea
          refine ⟨by simp [ha', h1], by simp [ha', henext], ?_⟩
          cases l2 with
          | nil => trivial
          | cons n l2' =>
              obtain ⟨g1, g2, g3⟩ := h3.2.2
              have hnn : h' n = ⟨(h e).prev, (h n).next⟩ :=
                hnx n (by rw [henext]; rfl)
              have hnd'' := List.nodup_cons.mp hnd'.2
              refine ⟨by simp [hnn, hea], by simp [hnn, g2], ?_⟩
              apply dll_congr h h' l2' (some n) g3
              intro x hx
              apply hother x (by simp [hx])
              · intro hxe; exact hnd''.1 (hxe ▸ (by simp [hx] : x ∈ n :: l2'))
              · rw [hea]; intro hc
                exact hnd'.1 ((Option.some.inj hc) ▸ (by simp [hx] : x ∈ [] ++ e :: n :: l2'))
              · rw [henext]
                simp only [List.head?_cons]
                intro hc
                exact (List.nodup_cons.mp hnd''.2).1 ((Option.some.inj hc) ▸ hx)
      | cons b l1'' =>
          subst hl1
          have heprev := dll_prev_eq h e (b :: l1'') (some a) l2 h3
          have ha' : h' a = h a := by
            apply hother a (by simp) hae
            · rw [heprev]
              cases hgl : (b :: l1'').getLast? with
              | none => simp at hgl
              | some c =>
                  simp only [hgl]
                  intro hc
                  have hcm : c ∈ b :: l1'' := List.mem_of_getLast?_eq_some hgl
                  exact hnd'.1 ((Option.some.inj hc) ▸ (List.mem_append_left _ hcm))
            · rw [henext]
              cases l2 with
              | nil => simp
              | cons n l2' =>
                  simp only [List.head?_cons]
                  intro hc
                  exact hnd'.1 ((Option.some.inj hc) ▸ (by simp : n ∈ (b :: l1'') ++ e :: n :: l2'))
          refine ⟨by simp [ha', h1], by simp [ha', h2], ?_⟩
          exact ih (some a) l2 h3 hnd'.2
            (fun x hc => (Option.some.inj hc) ▸ hnd'.1)
            (fun x hx hxe hxp hxn => hother x (List.mem_cons_of_mem a hx) hxe hxp hxn)

/-- Replacing the member `s` by a fresh node `o` at the same position
preserves the doubly-linked representation. -/
theorem dll_replace (h h' : Heap) (s o : Nat)
    (ho : h' o = ⟨(h s).prev, (h s).next⟩)
    (hpr : ∀ a, (h s).prev = some a → h' a = ⟨(h a).prev, some o⟩)
    (hnx : ∀ n, (h s).next = some n → h' n = ⟨some o, (h n).next⟩) :
    ∀ (l1 : List Nat) (p : Option Nat) (l2 : List Nat),
      dll h p (l1 ++ s :: l2) → (l1 ++ s :: l2).Nodup →
      (∀ a, p = some a → a ∉ l1 ++ s :: l2) →
      (∀ x, x ∈ l1 ++ s :: l2 → x ≠ s → (h s).prev ≠ some x → (h s).next ≠ some x →
        h' x = h x) →
      dll h' p (l1 ++ o :: l2) := by
  intro l1
  induction l1 with
  | nil =>
      intro p l2 hd hnd hpout hother
      obtain ⟨h1, h2, h3⟩ := hd
      refine ⟨by simp [ho, h1], by simp [ho, h2], ?_⟩
      cases l2 with
      | nil => trivial
      | cons n l2' =>
          obtain ⟨g1, g2, g3⟩ := h3
          have hnn : h' n = ⟨some o, (h n).next⟩ := hnx n (by rw [h2]; rfl)
          have hnd' := List.nodup_cons.mp hnd
          refine ⟨by simp [hnn], by simp [hnn, g2], ?_⟩
          apply dll_congr h h' l2' (some n) g3
          intro x hx
          apply hother x (by simp [hx])
          · intro hxs; exact hnd'.1 (hxs ▸ (by simp [hx] : x ∈ n :: l2'))
          · rw [h1]; intro hc; exact hpout x hc (by simp [hx])
          · rw [h2]
            simp only [List.head?_cons]
            intro hc
            exact (List.nodup_cons.mp hnd'.2).1 ((Option.some.inj hc) ▸ hx)
  | cons a l1' ih =>
      intro p l2 hd hnd hpout hother
      obtain ⟨h1, h2, h3⟩ := hd
      have hnd' := List.nodup_cons.mp hnd
      have has : a ≠ s := fun hh => hnd'.1 (hh ▸ (by simp : s ∈ l1' ++ s :: l2))
      have hsnext : (h s).next = l2.head? := dll_next_eq h s l1' (some a) l2 h3
      cases hl1 : l1' with
      | nil =>
          subst hl1
          have hsa : (h s).prev = some a := h3.1
          have ha' : h' a = ⟨(h a).prev, some o⟩ := hpr a hsa
          refine ⟨by simp [ha', h1], by simp [ha'], ?_⟩
          refine ⟨by simp [ho, hsa], by simp [ho, hsnext], ?_⟩
          cases l2 with
          | nil => trivial
          | cons n l2' =>
              obtain ⟨g1, g2, g3⟩ := h3.2.2
              have hnn : h' n = ⟨some o, (h n).next⟩ := hnx n (by rw [hsnext]; rfl)
              have hnd'' := List.nodup_cons.mp hnd'.2
              refine ⟨by simp [hnn], by simp [hnn, g2], ?_⟩
              apply dll_congr h h' l2' (some n) g3
              intro x hx
              apply hother x (by simp [hx])
              · intro hxs; exact hnd''.1 (hxs ▸ (by simp [hx] : x ∈ n :: l2'))
              · rw [hsa]; intro hc
                exact hnd'.1 ((Option.some.inj hc) ▸ (by simp [hx] : x ∈ [] ++ s :: n :: l2'))
              · rw [hsnext]
                simp only [List.head?_cons]
                intro hc
                exact (List.nodup_cons.mp hnd''.2).1 ((Option.some.inj hc) ▸ hx)
      | cons b l1'' =>
          subst hl1
          have hsprev := dll_prev_eq h s (b :: l1'') (some a) l2 h3
          have ha' : h' a = h a := by
            apply hother a (by simp) has
            · rw [hsprev]
              cases hgl : (b :: l1'').getLast? with
              | none => simp at hgl
              | some c =>
                  simp only [hgl]
                  intro hc
                  have hcm : c ∈ b :: l1'' := List.mem_of_getLast?_eq_some hgl
                  exact hnd'.1 ((Option.some.inj hc) ▸ (List.mem_append_left _ hcm))
            · rw [hsnext]
              cases l2 with
              | nil => simp
              | cons n l2' =>
                  simp only [List.head?_cons]
                  intro hc
                  exact hnd'.1 ((Option.some.inj hc) ▸ (by simp : n ∈ (b :: l1'') ++ s :: n :: l2'))
          refine ⟨by simp [ha', h1], by simp [ha', h2], ?_⟩
          exact ih (some a) l2 h3 hnd'.2
            (fun x hc => (Option.some.inj hc) ▸ hnd'.1)
            (fun x hx hxs hxp hxn => hother x (List.mem_cons_of_mem a hx) hxs hxp hxn)

/-- A successful `insertAfter` of a fresh node `e` after the member `t`
takes the represented sequence `l1 ++ t :: l2` to `l1 ++ t :: e :: l2`. -/
theorem repSeq_insertAfter (h h' : Heap) (l1 l2 : List Nat) (e t : Nat)
    (hrep : repSeq h (l1 ++ t :: l2)) (hfresh : e ∉ l1 ++ t :: l2)
    (hs : Issue.insertAfter h e t = some h') :
    repSeq h' (l1 ++ t :: e :: l2) := by
  obtain ⟨hnd, hdll⟩ := hrep
  obtain ⟨hp, hn⟩ := Issue.unlinked_of_insertAfter_some h e t h' hs
  have het : e ≠ t := fun hh => hfresh (hh ▸ (by simp : t ∈ l1 ++ t :: l2))
  have hmid := List.nodup_middle.mp hnd
  have htl : t ∉ l1 ++ l2 := (List.nodup_cons.mp hmid).1
  have htnext : (h t).next = l2.head? := dll_next_eq h t l1 none l2 hdll
  have hte : (h t).next ≠ some e := by
    rw [htnext]
    cases l2 with
    | nil => simp
    | cons n l2' =>
        simp only [List.head?_cons]
        intro hc
        exact hfresh ((Option.some.inj hc) ▸
          (List.mem_append_right _ (by simp) : n ∈ l1 ++ t :: n :: l2'))
  have htt : (h t).next ≠ some t := by
    rw [htnext]
    cases l2 with
    | nil => simp
    | cons n l2' =>
        simp only [List.head?_cons]
        intro hc
        exact htl ((Option.some.inj hc) ▸
          (List.mem_append_right _ (by simp) : n ∈ l1 ++ n :: l2'))
  rw [Issue.insertAfter_eq_some h e t hp hn het hte htt] at hs
  have hcf := (Option.some.inj hs).symm
  constructor
  · have h1 : List.Perm ((l1 ++ [t]) ++ e :: l2) (e :: ((l1 ++ [t]) ++ l2)) := List.perm_middle
    simp only [List.append_assoc, List.singleton_append] at h1
    exact h1.nodup_iff.mpr (List.nodup_cons.mpr ⟨hfresh, hnd⟩)
  · apply dll_splice_after h h' e t ?_ ?_ ?_ l1 none l2 hdll hnd hfresh ?_
    · rw [hcf]; simp
    · rw [hcf]; simp [Ne.symm het]
    · intro n hn2
      have hne : n ≠ e := fun hh => hte (hh ▸ hn2)
      have hnt : n ≠ t := fun hh => htt (hh ▸ hn2)
      rw [hcf]; simp [hne, hnt, hn2]
    · intro x hx hxt hxn
      have hxe : x ≠ e := fun hh => hfresh (hh ▸ hx)
      rw [hcf]; simp [hxe, hxt, hxn]

/-- A successful `insertBefore` of a fresh node `e` before the member `t`
takes the represented sequence `l1 ++ t :: l2` to `l1 ++ e :: t :: l2`. -/
theorem repSeq_insertBefore (h h' : Heap) (l1 l2 : List Nat) (e t : Nat)
    (hrep : repSeq h (l1 ++ t :: l2)) (hfresh : e ∉ l1 ++ t :: l2)
    (hs : Issue.insertBefore h e t = some h') :
    repSeq h' (l1 ++ e :: t :: l2) := by
  obtain ⟨hnd, hdll⟩ := hrep
  obtain ⟨hp, hn⟩ := Issue.unlinked_of_insertBefore_some h e t h' hs
  have het : e ≠ t := fun hh => hfresh (hh ▸ (by simp : t ∈ l1 ++ t :: l2))
  have hmid := List.nodup_middle.mp hnd
  have htl : t ∉ l1 ++ l2 := (List.nodup_cons.mp hmid).1
  have hprev := dll_mem_prev h t l1 l2 hdll
  have hte : (h t).prev ≠ some e := by
    rcases hprev with hh | ⟨a, ha, hh⟩
    · rw [hh]; simp
    · rw [hh]; intro hc
      exact hfresh ((Option.some.inj hc) ▸ List.mem_append_left _ ha)
  have htt : (h t).prev ≠ some t := by
    rcases hprev with hh | ⟨a, ha, hh⟩
    · rw [hh]; simp
    · rw [hh]; intro hc
      exact htl ((Option.some.inj hc) ▸ List.mem_append_left _ ha)
  rw [Issue.insertBefore_eq_some h e t hp hn het hte htt] at hs
  have hcf := (Option.some.inj hs).symm
  constructor
  · exact (List.perm_middle).nodup_iff.mpr (List.nodup_cons.mpr ⟨hfresh, hnd⟩)
  · apply dll_splice_before h h' e t ?_ ?_ ?_ l1 none l2 hdll hnd hfresh
      (fun a ha => Option.noConfusion ha) ?_
    · rw [hcf]; simp
    · rw [hcf]; simp [Ne.symm het]
    · intro a ha2
      have hae : a ≠ e := fun hh => hte (hh ▸ ha2)
      have hat : a ≠ t := fun hh => htt (hh ▸ ha2)
      rw [hcf]; simp [hae, hat, ha2]
    · intro x hx hxt hxp
      have hxe : x ≠ e := fun hh => hfresh (hh ▸ hx)
      rw [hcf]; simp [hxe, hxt, hxp]

/-- A successful `remove` of the member `e` takes the represented sequence
`l1 ++ e :: l2` to `l1 ++ l2`. -/
theorem repSeq_remove (h h' : Heap) (l1 l2 : List Nat) (e : Nat)
    (hrep : repSeq h (l1 ++ e :: l2))
    (hs : Issue.remove h e = some h') :
    repSeq h' (l1 ++ l2) := by
  obtain ⟨hnd, hdll⟩ := hrep
  have hl := Issue.linked_of_remove_some h e h' hs
  have hmid := List.nodup_middle.mp hnd
  have hel : e ∉ l1 ++ l2 := (List.nodup_cons.mp hmid).1
  have henext : (h e).next = l2.head? := dll_next_eq h e l1 none l2 hdll
  have heprev := dll_mem_prev h e l1 l2 hdll
  have hpe : (h e).prev ≠ some e := by
    rcases heprev with hh | ⟨a, ha, hh⟩
    · rw [hh]; simp
    · rw [hh]; intro hc
      exact hel ((Option.some.inj hc) ▸ List.mem_append_left _ ha)
  have hne : (h e).next ≠ some e := by
    rw [henext]
    cases l2 with
    | nil => simp
    | cons n l2' =>
        simp only [List.head?_cons]
        intro hc
        exact hel ((Option.some.inj hc) ▸
          (List.mem_append_right _ (by simp) : n ∈ l1 ++ n :: l2'))
  have hpn : ∀ p n, (h e).prev = some p → (h e).next = some n → p ≠ n := by
    intro p n hp2 hn2 hh
    subst hh
    rcases heprev with hh2 | ⟨a, ha, hh2⟩
    · rw [hh2] at hp2; exact Option.noConfusion hp2
    · have hap : a = p := Option.some.inj (hh2 ▸ hp2 : some a = some p)
      rw [henext] at hn2
      cases l2 with
      | nil => exact Option.noConfusion hn2
      | cons m l2' =>
          have hmp : m = p := Option.some.inj hn2.symm |>.symm
          have hdisj := List.disjoint_of_nodup_append hnd
          exact hdisj (hap ▸ ha) (hmp ▸ (by simp : m ∈ e :: m :: l2'))
  rw [Issue.remove_eq_some h e hl hpe hne hpn] at hs
  have hcf := (Option.some.inj hs).symm
  constructor
  · exact (List.nodup_cons.mp hmid).2
  · apply dll_unsplice h h' e ?_ ?_ l1 none l2 hdll hnd
      (fun a ha => Option.noConfusion ha) ?_
    · intro a ha2
      have hae : a ≠ e := fun hh => hpe (hh ▸ ha2)
      rw [hcf]; simp [hae, ha2]
    · intro n hn2
      have hne' : n ≠ e := fun hh => hne (hh ▸ hn2)
      have hpn' : (h e).prev ≠ some n := by
        cases hp3 : (h e).prev with
        | none => simp
        | some p =>
            intro hc
            exact hpn p n hp3 hn2 (Option.some.inj hc)
      rw [hcf]; simp [hne', hpn', hn2]
    · intro x hx hxe hxp hxn
      rw [hcf]; simp [hxe, hxp, hxn]

/-- A successful `replaceWith` substituting the fresh node `o` for the member
`s` takes the represented sequence `l1 ++ s :: l2` to `l1 ++ o :: l2`: the
replacement occupies exactly the old position. -/
theorem repSeq_replaceWith (h h' : Heap) (l1 l2 : List Nat) (s o : Nat)
    (hrep : repSeq h (l1 ++ s :: l2)) (hfresh : o ∉ l1 ++ s :: l2)
    (hs : Issue.replaceWith h s o = some h') :
    repSeq h' (l1 ++ o :: l2) := by
  obtain ⟨hnd, hdll⟩ := hrep
  obtain ⟨hop, hon⟩ := Issue.unlinked_of_replaceWith_some h s o h' hs
  have hso : s ≠ o := fun hh => hfresh (hh ▸ (by simp : s ∈ l1 ++ s :: l2))
  have hmid := List.nodup_middle.mp hnd
  have hsl : s ∉ l1 ++ l2 := (List.nodup_cons.mp hmid).1
  have hsnext : (h s).next = l2.head? := dll_next_eq h s l1 none l2 hdll
  have hsprev := dll_mem_prev h s l1 l2 hdll
  have hps : (h s).prev ≠ some s := by
    rcases hsprev with hh | ⟨a, ha, hh⟩
    · rw [hh]; simp
    · rw [hh]; intro hc
      exact hsl ((Option.some.inj hc) ▸ List.mem_append_left _ ha)
  have hpo : (h s).prev ≠ some o := by
    rcases hsprev with hh | ⟨a, ha, hh⟩
    · rw [hh]; simp
    · rw [hh]; intro hc
      exact hfresh ((Option.some.inj hc) ▸ List.mem_append_left _ ha)
  have hns : (h s).next ≠ some s := by
    rw [hsnext]
    cases l2 with
    | nil => simp
    | cons n l2' =>
        simp only [List.head?_cons]
        intro hc
        exact hsl ((Option.some.inj hc) ▸
          (List.mem_append_right _ (by simp) : n ∈ l1 ++ n :: l2'))
  have hno : (h s).next ≠ some o := by
    rw [hsnext]
    cases l2 with
    | nil => simp
    | cons n l2' =>
        simp only [List.head?_cons]
        intro hc
        exact hfresh ((Option.some.inj hc) ▸
          (List.mem_append_right _ (by simp) : n ∈ l1 ++ s :: n :: l2'))
  have hpn : ∀ p n, (h s).prev = some p → (h s).next = some n → p ≠ n := by
    intro p n hp2 hn2 hh
    subst hh
    rcases hsprev with hh2 | ⟨a, ha, hh2⟩
    · rw [hh2] at hp2; exact Option.noConfusion hp2
    · have hap : a = p := Option.some.inj (hh2 ▸ hp2 : some a = some p)
      rw [hsnext] at hn2
      cases l2 with
      | nil => exact Option.noConfusion hn2
      | cons m l2' =>
          have hmp : m = p := Option.some.inj hn2.symm |>.symm
          have hdisj := List.disjoint_of_nodup_append hnd
          exact hdisj (hap ▸ ha) (hmp ▸ (by simp : m ∈ s :: m :: l2'))
  rw [Issue.replaceWith_eq_some h s o hop hon hso hps hpo hns hno hpn] at hs
  have hcf := (Option.some.inj hs).symm
  constructor
  · have ho2 : o ∉ l1 ++ l2 := by
      intro hc
      rcases List.mem_append.mp hc with hc | hc
      · exact hfresh (List.mem_append_left _ hc)
      · exact hfresh (List.mem_append_right _ (List.mem_cons_of_mem _ hc))
    exact List.nodup_middle.mpr (List.nodup_cons.mpr ⟨ho2, (List.nodup_cons.mp hmid).2⟩)
  · apply dll_replace h h' s o ?_ ?_ ?_ l1 none l2 hdll hnd
      (fun a ha => Option.noConfusion ha) ?_
    · rw [hcf]; simp [Ne.symm hso]
    · intro a ha2
      have has : a ≠ s := fun hh => hps (hh ▸ ha2)
      have hao : a ≠ o := fun hh => hpo (hh ▸ ha2)
      rw [hcf]; simp [has, hao, ha2]
    · intro n hn2
      have hns' : n ≠ s := fun hh => hns (hh ▸ hn2)
      have hno' : n ≠ o := fun hh => hno (hh ▸ hn2)
      have hpn' : (h s).prev ≠ some n := by
        cases hp3 : (h s).prev with
        | none => simp
        | some p =>
            intro hc
            exact hpn p n hp3 hn2 (Option.some.inj hc)
      rw [hcf]; simp [hns', hno', hpn', hn2]
    · intro x hx hxs hxp hxn
      have hxo : x ≠ o := fun hh => hfresh (hh ▸ hx)
      rw [hcf]; simp [hxs, hxo, hxp, hxn]

/-- Every reachable sequence state satisfies the doubly-linked
representation invariant. -/
theorem repSeq_of_reachable (h : Heap) (l : List Nat) (hr : Reachable h l) :
    repSeq h l := by
  induction hr with
  | empty => exact ⟨List.nodup_nil, trivial⟩
  | head x => exact ⟨List.nodup_singleton x, ⟨rfl, rfl, trivial⟩⟩
  | insAfter _ hf hs ih => exact repSeq_insertAfter _ _ _ _ _ _ ih hf hs
  | insBefore _ hf hs ih => exact repSeq_insertBefore _ _ _ _ _ _ ih hf hs
  | del _ hs ih => exact repSeq_remove _ _ _ _ _ ih hs
  | replace _ hf hs ih => exact repSeq_replaceWith _ _ _ _ _ _ ih hf hs

/-- In a represented sequence, a member whose `prev` is null is the head. -/
theorem repSeq_prev_none_head (h : Heap) (l : List Nat) (hrep : repSeq h l) :
    ∀ b ∈ l, (h b).prev = none → l.head? = some b := by
  intro b hb hbp
  obtain ⟨l1, l2, rfl⟩ := List.append_of_mem hb
  have hpe := dll_prev_eq h b l1 none l2 hrep.2
  cases hgl : l1.getLast? with
  | some c =>
      rw [hgl] at hpe
      rw [hbp] at hpe
      exact Option.noConfusion hpe
  | none =>
      have : l1 = [] := List.getLast?_eq_none_iff.mp hgl
      subst this
      rfl

/-- In a represented sequence, a member whose `next` is null is the last
element. -/
theorem repSeq_next_none_last (h : Heap) (l : List Nat) (hrep : repSeq h l) :
    ∀ b ∈ l, (h b).next = none → l.getLast? = some b := by
  intro b hb hbn
  obtain ⟨l1, l2, rfl⟩ := List.append_of_mem hb
  have hne := dll_next_eq h b l1 none l2 hrep.2
  rw [hbn] at hne
  have : l2 = [] := by
    cases l2 with
    | nil => rfl
    | cons n l2' => exact Option.noConfusion hne
  subst this
  rw [List.getLast?_eq_some_iff]
  exact ⟨l1, rfl⟩

theorem node_eq_mk (v : Node) (a b : Option Nat) (h1 : v.prev = a) (h2 : v.next = b) :
    v = ⟨a, b⟩ := by
  cases v
  cases h1
  cases h2
  rfl

/-- C5: the non-overridden `Issue::mergeWith` always returns null — entities
are not mergeable by default. -/
theorem C5_base_mergeWith_none (c : Nat) (other : Entity) :
    Entity.mergeWith (Entity.issue c) other = none := rfl

theorem C5_witness : Entity.mergeWith (Entity.issue 7) (Entity.issue 7) = none :=
  C5_base_mergeWith_none 7 (Entity.issue 7)

/-- C6: `IssueGroup::mergeWith` on a cause-compatible candidate appends the
candidate — or, for a group candidate, its internal members — onto the
internal sub-sequence and returns the group itself (here: the same group with
the grown member list); on an incompatible candidate it returns null.
Merging two groups of the same cause yields one group holding the union of
the member lists, and when neither input holds a nested group the result
holds none either — never a group containing a group. -/
theorem C6_group_mergeWith (c : Nat) (ms : List Entity) (other : Entity) :
    (other.cause = c → Entity.mergeWith (Entity.group c ms) other =
        some (Entity.group c (ms ++ other.absorbedMembers))) ∧
    (other.cause ≠ c → Entity.mergeWith (Entity.group c ms) other = none) ∧
    (∀ ms2, Entity.mergeWith (Entity.group c ms) (Entity.group c ms2) =
        some (Entity.group c (ms ++ ms2))) ∧
    (∀ r, Entity.mergeWith (Entity.group c ms) other = some r →
      (∀ x ∈ ms, x.isGroup = false) →
      (∀ x ∈ other.absorbedMembers, x.isGroup = false) →
      ∃ rms, r = Entity.group c rms ∧ rms = ms ++ other.absorbedMembers ∧
        ∀ x ∈ rms, x.isGroup = false) := by
  refine ⟨?_, ?_, ?_, ?_⟩
  · intro hc; simp [Entity.mergeWith, hc]
  · intro hc; simp [Entity.mergeWith, hc]
  · intro ms2; simp [Entity.mergeWith, Entity.cause, Entity.absorbedMembers]
  · intro r hr hms hother
    have hc : other.cause = c := by
      by_contra hcc
      simp [Entity.mergeWith, hcc] at hr
    simp [Entity.mergeWith, hc] at hr
    refine ⟨ms ++ other.absorbedMembers, hr.symm, rfl, ?_⟩
    intro x hx
    rcases List.mem_append.mp hx with hx | hx
    · exact hms x hx
    · exact hother x hx

theorem C6_witness :
    Entity.mergeWith (Entity.group 5 [Entity.issue 5])
        (Entity.group 5 [Entity.issue 5, Entity.issue 5]) =
      some (Entity.group 5 [Entity.issue 5, Entity.issue 5, Entity.issue 5]) :=
  (C6_group_mergeWith 5 [Entity.issue 5]
    (Entity.group 5 [Entity.issue 5, Entity.issue 5])).2.2.1
    [Entity.issue 5, Entity.issue 5]

/-- C9: `findFirstMatch` scans in sequence order and returns the first
entity whose `mergeWith` accepts the candidate (all earlier entities
reject), or null when every entity rejects; and it is a function of the
sequence state and the candidate alone, so equal inputs give equal
results. -/
theorem C9_findFirstMatch_first (l : List Entity) (cand : Entity) :
    (∀ e, findFirstMatch l cand = some e →
      ∃ l1 l2, l = l1 ++ e :: l2 ∧ (e.mergeWith cand).isSome = true ∧
        ∀ x ∈ l1, x.mergeWith cand = none) ∧
    (findFirstMatch l cand = none → ∀ x ∈ l, x.mergeWith cand = none) ∧
    (∀ l' cand', l = l' → cand = cand' →
      findFirstMatch l cand = findFirstMatch l' cand') := by
  refine ⟨?_, ?_, ?_⟩
  · induction l with
    | nil => intro e hs; exact Option.noConfusion hs
    | cons a rest ih =>
        intro e hs
        by_cases hA : (a.mergeWith cand).isSome = true
        · rw [show findFirstMatch (a :: rest) cand = some a from by
            simp [findFirstMatch, hA]] at hs
          obtain rfl : a = e := Option.some.inj hs
          exact ⟨[], rest, rfl, hA, fun x hx => absurd hx (List.not_mem_nil x)⟩
        · have hnone : a.mergeWith cand = none := by
            cases hm : a.mergeWith cand with
            | none => rfl
            | some v => rw [hm] at hA; exact absurd rfl hA
          rw [show findFirstMatch (a :: rest) cand = findFirstMatch rest cand from by
            simp [findFirstMatch, hA]] at hs
          obtain ⟨l1, l2, hrest, hsome, hall⟩ := ih e hs
          refine ⟨a :: l1, l2, by rw [hrest]; rfl, hsome, ?_⟩
          intro x hx
          rcases List.mem_cons.mp hx with rfl | hx'
          · exact hnone
          · exact hall x hx'
  · induction l with
    | nil => intro _ x hx; exact absurd hx (List.not_mem_nil x)
    | cons a rest ih =>
        intro hs x hx
        by_cases hA : (a.mergeWith cand).isSome = true
        · rw [show findFirstMatch (a :: rest) cand = some a from by
            simp [findFirstMatch, hA]] at hs
          exact Option.noConfusion hs
        · have hnone : a.mergeWith cand = none := by
            cases hm : a.mergeWith cand with
            | none => rfl
            | some v => rw [hm] at hA; exact absurd rfl hA
          rw [show findFirstMatch (a :: rest) cand = findFirstMatch rest cand from by
            simp [findFirstMatch, hA]] at hs
          rcases List.mem_cons.mp hx with rfl | hx'
          · exact hnone
          · exact ih hs x hx'
  · intro l' cand' h1 h2
    rw [h1, h2]

theorem C9_witness : ∃ l1 l2,
    [Entity.issue 1, Entity.group 2 [], Entity.issue 2] =
      l1 ++ Entity.group 2 [] :: l2 ∧
    ((Entity.group 2 []).mergeWith (Entity.issue 2)).isSome = true ∧
    ∀ x ∈ l1, x.mergeWith (Entity.issue 2) = none :=
  (C9_findFirstMatch_first [Entity.issue 1, Entity.group 2 [], Entity.issue 2]
    (Entity.issue 2)).1 (Entity.group 2 []) rfl

/-- C2: a successful `remove` nulls the removed node's own links and links
its former predecessor and former successor directly to each other, leaving
both neighbours' outer fields untouched; the node itself stays in the heap
(the model has no destruction — ownership passes to the caller). -/
theorem C2_remove_spec (h h' : Heap) (e : Nat)
    (hpe : (h e).prev ≠ some e) (hne : (h e).next ≠ some e)
    (hpn : ∀ p n, (h e).prev = some p → (h e).next = some n → p ≠ n)
    (hs : Issue.remove h e = some h') :
    (h' e).prev = none ∧ (h' e).next = none ∧
    (∀ p, (h e).prev = some p → (h' p).next = (h e).next ∧ (h' p).prev = (h p).prev) ∧
    (∀ n, (h e).next = some n → (h' n).prev = (h e).prev ∧ (h' n).next = (h n).next) := by
  have hl := Issue.linked_of_remove_some h e h' hs
  rw [Issue.remove_eq_some h e hl hpe hne hpn] at hs
  have hcf := (Option.some.inj hs).symm
  refine ⟨by rw [hcf]; simp, by rw [hcf]; simp, ?_, ?_⟩
  · intro p hp2
    have hpe' : p ≠ e := fun hh => hpe (hh ▸ hp2)
    constructor
    · rw [hcf]; simp [hpe', hp2]
    · rw [hcf]; simp [hpe', hp2]
  · intro n hn2
    have hne' : n ≠ e := fun hh => hne (hh ▸ hn2)
    have hpn' : (h e).prev ≠ some n := by
      cases hp3 : (h e).prev with
      | none => simp
      | some p =>
          intro hc
          exact hpn p n hp3 hn2 (Option.some.inj hc)
    constructor
    · rw [hcf]; simp [hne', hpn', hn2]
    · rw [hcf]; simp [hne', hpn', hn2]

theorem C2_witness : ∃ h', Issue.remove heap3 1 = some h' ∧
    (h' 1).prev = none ∧ (h' 1).next = none ∧
    (h' 0).next = some 2 ∧ (h' 2).prev = some 0 := by
  obtain ⟨ha, hb, hc, hd⟩ :=
    C2_remove_spec heap3 _ 1 (by decide) (by decide)
      (fun p n hp hn => by
        rcases Option.some.inj hp with rfl
        rcases Option.some.inj hn with rfl
        decide) rfl
  exact ⟨_, rfl, ha, hb, (hc 0 rfl).1, (hd 2 rfl).1⟩

/-- C4: under the stated preconditions — `self` unlinked and the heap not
aliasing `target` with itself or `self` — `insertAfter` splices `self`
directly after `target` and `insertBefore` directly before it; a linked
`self` makes both inserts fail with `none` (the fatal-error branch), and
`remove` on an unlinked node likewise fails with `none`, so no link is ever
silently corrupted. -/
theorem C4_insert_remove_failure (h : Heap) (e t : Nat)
    (hp : (h e).prev = none) (hn : (h e).next = none) (het : e ≠ t)
    (htne : (h t).next ≠ some e) (htnt : (h t).next ≠ some t)
    (htpe : (h t).prev ≠ some e) (htpt : (h t).prev ≠ some t) :
    (∃ h', Issue.insertAfter h e t = some h' ∧
      (h' e).prev = some t ∧ (h' e).next = (h t).next ∧ (h' t).next = some e ∧
      ∀ n, (h t).next = some n → (h' n).prev = some e) ∧
    (∃ h', Issue.insertBefore h e t = some h' ∧
      (h' e).next = some t ∧ (h' e).prev = (h t).prev ∧ (h' t).prev = some e ∧
      ∀ p, (h t).prev = some p → (h' p).next = some e) ∧
    (∀ s u, ¬((h s).prev = none ∧ (h s).next = none) →
      Issue.insertAfter h s u = none ∧ Issue.insertBefore h s u = none) ∧
    (∀ s, (h s).prev = none → (h s).next = none → Issue.remove h s = none) := by
  refine ⟨?_, ?_, ?_, ?_⟩
  · refine ⟨_, Issue.insertAfter_eq_some h e t hp hn het htne htnt, ?_, ?_, ?_, ?_⟩
    · simp
    · simp
    · simp [Ne.symm het]
    · intro n hn2
      have hne2 : n ≠ e := fun hh => htne (hh ▸ hn2)
      have hnt2 : n ≠ t := fun hh => htnt (hh ▸ hn2)
      simp [hne2, hnt2, hn2]
  · refine ⟨_, Issue.insertBefore_eq_some h e t hp hn het htpe htpt, ?_, ?_, ?_, ?_⟩
    · simp
    · simp
    · simp [Ne.symm het]
    · intro p hp2
      have hpe2 : p ≠ e := fun hh => htpe (hh ▸ hp2)
      have hpt2 : p ≠ t := fun hh => htpt (hh ▸ hp2)
      simp [hpe2, hpt2, hp2]
  · intro s u hl
    exact ⟨Issue.insertAfter_none_of_linked h s u hl,
      Issue.insertBefore_none_of_linked h s u hl⟩
  · intro s hsp hsn
    exact Issue.remove_none_of_unlinked h s ⟨hsp, hsn⟩

theorem C4_witness :
    (∃ h', Issue.insertAfter heap3 3 1 = some h' ∧
      (h' 3).prev = some 1 ∧ (h' 3).next = (heap3 1).next ∧ (h' 1).next = some 3 ∧
      ∀ n, (heap3 1).next = some n → (h' n).prev = some 3) ∧
    (∃ h', Issue.insertBefore heap3 3 1 = some h' ∧
      (h' 3).next = some 1 ∧ (h' 3).prev = (heap3 1).prev ∧ (h' 1).prev = some 3 ∧
      ∀ p, (heap3 1).prev = some p → (h' p).next = some 3) ∧
    (∀ s u, ¬((heap3 s).prev = none ∧ (heap3 s).next = none) →
      Issue.insertAfter heap3 s u = none ∧ Issue.insertBefore heap3 s u = none) ∧
    (∀ s, (heap3 s).prev = none → (heap3 s).next = none → Issue.remove heap3 s = none) :=
  C4_insert_remove_failure heap3 3 1 (by decide) (by decide) (by decide)
    (by decide) (by decide) (by decide) (by decide)

/-- C1: starting from any represented sequence, after a successful
`insertAfter`, `insertBefore`, `remove`, or `replaceWith` (the latter also
covering a merge result installed via `replaceWith`), every entity of the
resulting sequence satisfies the linkage invariant: its `prev` is null or the
predecessor's `next` points back at it, and symmetrically for `next`. -/
theorem C1_linkage_invariant (h : Heap) (l1 l2 : List Nat) (e t : Nat)
    (hrep : repSeq h (l1 ++ t :: l2)) (hfresh : e ∉ l1 ++ t :: l2) :
    (∀ h', Issue.insertAfter h e t = some h' →
      ∀ x ∈ l1 ++ t :: e :: l2, linkInv h' x) ∧
    (∀ h', Issue.insertBefore h e t = some h' →
      ∀ x ∈ l1 ++ e :: t :: l2, linkInv h' x) ∧
    (∀ h', Issue.remove h t = some h' → ∀ x ∈ l1 ++ l2, linkInv h' x) ∧
    (∀ h', Issue.replaceWith h t e = some h' →
      ∀ x ∈ l1 ++ e :: l2, linkInv h' x) := by
  refine ⟨?_, ?_, ?_, ?_⟩
  · intro h' hs x hx
    have hrep' := repSeq_insertAfter h h' l1 l2 e t hrep hfresh hs
    exact dll_linkInv h' _ none hrep'.2 (fun a ha => Option.noConfusion ha) x hx
  · intro h' hs x hx
    have hrep' := repSeq_insertBefore h h' l1 l2 e t hrep hfresh hs
    exact dll_linkInv h' _ none hrep'.2 (fun a ha => Option.noConfusion ha) x hx
  · intro h' hs x hx
    have hrep' := repSeq_remove h h' l1 l2 t hrep hs
    exact dll_linkInv h' _ none hrep'.2 (fun a ha => Option.noConfusion ha) x hx
  · intro h' hs x hx
    have hrep' := repSeq_replaceWith h h' l1 l2 t e hrep hfresh hs
    exact dll_linkInv h' _ none hrep'.2 (fun a ha => Option.noConfusion ha) x hx

theorem C1_witness :
    (∀ h', Issue.insertAfter emptyHeap 1 0 = some h' →
      ∀ x ∈ [0, 1], linkInv h' x) ∧
    (∀ h', Issue.insertBefore emptyHeap 1 0 = some h' →
      ∀ x ∈ [1, 0], linkInv h' x) ∧
    (∀ h', Issue.remove emptyHeap 0 = some h' →
      ∀ x ∈ ([] : List Nat), linkInv h' x) ∧
    (∀ h', Issue.replaceWith emptyHeap 0 1 = some h' →
      ∀ x ∈ [1], linkInv h' x) :=
  C1_linkage_invariant emptyHeap [] [] 1 0 (by decide) (by decide)

/-- C3: a successful `replaceWith` puts the unlinked replacement `o` at the
exact sequence position of `s` — the represented sequence changes from
`l1 ++ s :: l2` to `l1 ++ o :: l2` (position `|l1|`, not the tail), `o`
inherits `s`'s neighbour links, the two neighbours are repointed at `o`, and
`s` ends up unlinked. -/
theorem C3_replaceWith_position (h h' : Heap) (l1 l2 : List Nat) (s o : Nat)
    (hrep : repSeq h (l1 ++ s :: l2)) (hfresh : o ∉ l1 ++ s :: l2)
    (hs : Issue.replaceWith h s o = some h') :
    repSeq h' (l1 ++ o :: l2) ∧
    (h' o).prev = (h s).prev ∧ (h' o).next = (h s).next ∧
    (∀ p, (h s).prev = some p → (h' p).next = some o) ∧
    (∀ n, (h s).next = some n → (h' n).prev = some o) ∧
    (h' s).prev = none ∧ (h' s).next = none := by
  refine ⟨repSeq_replaceWith h h' l1 l2 s o hrep hfresh hs, ?_⟩
  obtain ⟨hnd, hdll⟩ := hrep
  obtain ⟨hop, hon⟩ := Issue.unlinked_of_replaceWith_some h s o h' hs
  have hso : s ≠ o := fun hh => hfresh (hh ▸ (by simp : s ∈ l1 ++ s :: l2))
  have hmid := List.nodup_middle.mp hnd
  have hsl : s ∉ l1 ++ l2 := (List.nodup_cons.mp hmid).1
  have hsnext : (h s).next = l2.head? := dll_next_eq h s l1 none l2 hdll
  have hsprev := dll_mem_prev h s l1 l2 hdll
  have hps : (h s).prev ≠ some s := by
    rcases hsprev with hh | ⟨a, ha, hh⟩
    · rw [hh]; simp
    · rw [hh]; intro hc
      exact hsl ((Option.some.inj hc) ▸ List.mem_append_left _ ha)
  have hpo : (h s).prev ≠ some o := by
    rcases hsprev with hh | ⟨a, ha, hh⟩
    · rw [hh]; simp
    · rw [hh]; intro hc
      exact hfresh ((Option.some.inj hc) ▸ List.mem_append_left _ ha)
  have hns : (h s).next ≠ some s := by
    rw [hsnext]
    cases l2 with
    | nil => simp
    | cons n l2' =>
        simp only [List.head?_cons]
        intro hc
        exact hsl ((Option.some.inj hc) ▸
          (List.mem_append_right _ (by simp) : n ∈ l1 ++ n :: l2'))
  have hno : (h s).next ≠ some o := by
    rw [hsnext]
    cases l2 with
    | nil => simp
    | cons n l2' =>
        simp only [List.head?_cons]
        intro hc
        exact hfresh ((Option.some.inj hc) ▸
          (List.mem_append_right _ (by simp) : n ∈ l1 ++ s :: n :: l2'))
  have hpn : ∀ p n, (h s).prev = some p → (h s).next = some n → p ≠ n := by
    intro p n hp2 hn2 hh
    subst hh
    rcases hsprev with hh2 | ⟨a, ha, hh2⟩
    · rw [hh2] at hp2; exact Option.noConfusion hp2
    · have hap : a = p := Option.some.inj (hh2 ▸ hp2 : some a = some p)
      rw [hsnext] at hn2
      cases l2 with
      | nil => exact Option.noConfusion hn2
      | cons m l2' =>
          have hmp : m = p := Option.some.inj hn2.symm |>.symm
          have hdisj := List.disjoint_of_nodup_append hnd
          exact hdisj (hap ▸ ha) (hmp ▸ (by simp : m ∈ s :: m :: l2'))
  rw [Issue.replaceWith_eq_some h s o hop hon hso hps hpo hns hno hpn] at hs
  have hcf := (Option.some.inj hs).symm
  refine ⟨by rw [hcf]; simp [Ne.symm hso], by rw [hcf]; simp [Ne.symm hso],
    ?_, ?_, by rw [hcf]; simp, by rw [hcf]; simp⟩
  · intro p hp2
    have hp1 : p ≠ s := fun hh => hps (hh ▸ hp2)
    have hp2' : p ≠ o := fun hh => hpo (hh ▸ hp2)
    rw [hcf]; simp [hp1, hp2', hp2]
  · intro n hn2
    have hn1 : n ≠ s := fun hh => hns (hh ▸ hn2)
    have hn2' : n ≠ o := fun hh => hno (hh ▸ hn2)
    have hpn2 : (h s).prev ≠ some n := by
      cases hp3 : (h s).prev with
      | none => simp
      | some p =>
          intro hc
          exact hpn p n hp3 hn2 (Option.some.inj hc)
    rw [hcf]; simp [hn1, hn2', hpn2, hn2]

theorem C3_witness : ∃ h', Issue.replaceWith heap3 1 3 = some h' ∧
    repSeq h' ([0] ++ 3 :: [2]) ∧
    (h' 3).prev = some 0 ∧ (h' 3).next = some 2 ∧
    (h' 0).next = some 3 ∧ (h' 2).prev = some 3 ∧
    (h' 1).prev = none ∧ (h' 1).next = none := by
  obtain ⟨hrep', ho1, ho2, hc, hd, he1, he2⟩ :=
    C3_replaceWith_position heap3 _ [0] [2] 1 3 (by decide) (by decide) rfl
  exact ⟨_, rfl, hrep', ho1, ho2, hc 0 rfl, hd 2 rfl, he1, he2⟩

/-- C7: inserting an unlinked entity `e` after (or before) a member `t` of a
well-linked neighbourhood and then immediately removing `e` restores the
heap exactly — every node, hence the head, the length and the order of the
remaining entities, is as before the insertion. -/
theorem C7_roundtrip (h : Heap) (e t : Nat)
    (hp : (h e).prev = none) (hn : (h e).next = none) (het : e ≠ t)
    (hconsN : ∀ n, (h t).next = some n → (h n).prev = some t)
    (hconsP : ∀ p, (h t).prev = some p → (h p).next = some t)
    (htnt : (h t).next ≠ some t) (htpt : (h t).prev ≠ some t) :
    (∀ h1, Issue.insertAfter h e t = some h1 → Issue.remove h1 e = some h) ∧
    (∀ h1, Issue.insertBefore h e t = some h1 → Issue.remove h1 e = some h) := by
  have hte : (h t).next ≠ some e := by
    intro hh
    have h2 := hconsN e hh
    rw [hp] at h2
    exact Option.noConfusion h2
  have htpe : (h t).prev ≠ some e := by
    intro hh
    have h2 := hconsP e hh
    rw [hn] at h2
    exact Option.noConfusion h2
  constructor
  · intro h1 hs
    rw [Issue.insertAfter_eq_some h e t hp hn het hte htnt] at hs
    have hcf := (Option.some.inj hs).symm
    have hfe : h1 e = ⟨some t, (h t).next⟩ := by rw [hcf]; simp
    have hft : h1 t = ⟨(h t).prev, some e⟩ := by rw [hcf]; simp [Ne.symm het]
    have hfn : ∀ n, (h t).next = some n → h1 n = ⟨some e, (h n).next⟩ := by
      intro n hn2
      have hne2 : n ≠ e := fun hh => hte (hh ▸ hn2)
      have hnt2 : n ≠ t := fun hh => htnt (hh ▸ hn2)
      rw [hcf]; simp [hne2, hnt2, hn2]
    have hfx : ∀ x, x ≠ e → x ≠ t → (h t).next ≠ some x → h1 x = h x := by
      intro x h1x h2x h3x
      rw [hcf]; simp [h1x, h2x, h3x]
    have hl : ¬((h1 e).prev = none ∧ (h1 e).next = none) := by
      rw [hfe]
      intro hcc
      exact Option.noConfusion hcc.1
    have hpe1 : (h1 e).prev ≠ some e := by
      rw [hfe]
      intro hh
      exact het (Option.some.inj hh).symm
    have hne1 : (h1 e).next ≠ some e := by rw [hfe]; exact hte
    have hpn1 : ∀ p n, (h1 e).prev = some p → (h1 e).next = some n → p ≠ n := by
      intro p n hp2 hn2
      rw [hfe] at hp2 hn2
      have hp2' : some t = some p := hp2
      have hn2' : (h t).next = some n := hn2
      obtain rfl : t = p := Option.some.inj hp2'
      intro hh
      subst hh
      exact htnt hn2'
    rw [Issue.remove_eq_some h1 e hl hpe1 hne1 hpn1]
    congr 1
    funext x
    by_cases hxe : x = e
    · subst hxe
      rw [node_eq_mk (h x) none none hp hn]
      simp
    · by_cases hxt : x = t
      · subst hxt
        have hcond : (h1 e).prev = some x := by rw [hfe]
        rw [node_eq_mk (h x) ((h x).prev) ((h x).next) rfl rfl]
        simp [hxe, hcond, hfe, hft]
      · by_cases hxn2 : (h t).next = some x
        · have hcondp : (h1 e).prev ≠ some x := by
            rw [hfe]
            intro hh
            exact hxt (Option.some.inj hh).symm
          have hcondn : (h1 e).next = some x := by rw [hfe]; exact hxn2
          have htx : ¬(t = x) := fun hh => hxt hh.symm
          rw [node_eq_mk (h x) (some t) ((h x).next) (hconsN x hxn2) rfl]
          simp [hxe, hcondp, hcondn, htx, hxn2, hfe, hfn x hxn2]
        · have hcondp : (h1 e).prev ≠ some x := by
            rw [hfe]
            intro hh
            exact hxt (Option.some.inj hh).symm
          have hcondn : (h1 e).next ≠ some x := by rw [hfe]; exact hxn2
          simp [hxe, hcondp, hcondn, hfx x hxe hxt hxn2]
  · intro h1 hs
    rw [Issue.insertBefore_eq_some h e t hp hn het htpe htpt] at hs
    have hcf := (Option.some.inj hs).symm
    have hfe : h1 e = ⟨(h t).prev, some t⟩ := by rw [hcf]; simp
    have hft : h1 t = ⟨some e, (h t).next⟩ := by rw [hcf]; simp [Ne.symm het]
    have hfp : ∀ p, (h t).prev = some p → h1 p = ⟨(h p).prev, some e⟩ := by
      intro p hp2
      have hpe2 : p ≠ e := fun hh => htpe (hh ▸ hp2)
      have hpt2 : p ≠ t := fun hh => htpt (hh ▸ hp2)
      rw [hcf]; simp [hpe2, hpt2, hp2]
    have hfx : ∀ x, x ≠ e → x ≠ t → (h t).prev ≠ some x → h1 x = h x := by
      intro x h1x h2x h3x
      rw [hcf]; simp [h1x, h2x, h3x]
    have hl : ¬((h1 e).prev = none ∧ (h1 e).next = none) := by
      rw [hfe]
      intro hcc
      exact Option.noConfusion hcc.2
    have hpe1 : (h1 e).prev ≠ some e := by rw [hfe]; exact htpe
    have hne1 : (h1 e).next ≠ some e := by
      rw [hfe]
      intro hh
      exact het (Option.some.inj hh).symm
    have hpn1 : ∀ p n, (h1 e).prev = some p → (h1 e).next = some n → p ≠ n := by
      intro p n hp2 hn2
      rw [hfe] at hp2 hn2
      have hp2' : (h t).prev = some p := hp2
      have hn2' : some t = some n := hn2
      obtain rfl : t = n := Option.some.inj hn2'
      intro hh
      subst hh
      exact htpt hp2'
    rw [Issue.remove_eq_some h1 e hl hpe1 hne1 hpn1]
    congr 1
    funext x
    by_cases hxe : x = e
    · subst hxe
      rw [node_eq_mk (h x) none none hp hn]
      simp
    · by_cases hxp2 : (h t).prev = some x
      · have hcondp : (h1 e).prev = some x := by rw [hfe]; exact hxp2
        have htx : ¬(t = x) := fun hh => htpt (hh ▸ hxp2)
        rw [node_eq_mk (h x) ((h x).prev) (some t) rfl (hconsP x hxp2)]
        simp [hxe, hcondp, htx, hxp2, hfe, hfp x hxp2]
      · by_cases hxt : x = t
        · subst hxt
          have hcondp : (h1 e).prev ≠ some x := by rw [hfe]; exact hxp2
          have hcondn : (h1 e).next = some x := by rw [hfe]
          rw [node_eq_mk (h x) ((h x).prev) ((h x).next) rfl rfl]
          simp [hxe, hcondp, hcondn, hxp2, hfe, hft]
        · have hcondp : (h1 e).prev ≠ some x := by rw [hfe]; exact hxp2
          have hcondn : (h1 e).next ≠ some x := by
            rw [hfe]
            intro hh
            exact hxt (Option.some.inj hh).symm
          simp [hxe, hcondp, hcondn, hfx x hxe hxt hxp2]

theorem C7_witness :
    (∀ h1, Issue.insertAfter heap3 3 1 = some h1 →
      Issue.remove h1 3 = some heap3) ∧
    (∀ h1, Issue.insertBefore heap3 3 1 = some h1 →
      Issue.remove h1 3 = some heap3) :=
  C7_roundtrip heap3 3 1 rfl rfl (by decide)
    (fun n hn => by
      rcases Option.some.inj hn with rfl
      rfl)
    (fun p hp => by
      rcases Option.some.inj hp with rfl
      rfl)
    (by decide) (by decide)

/-- C8: every sequence state reachable from the empty sequence by the four
structural operations is acyclic — the fuelled `next` traversal from the
head recovers the sequence exactly, however much surplus fuel is supplied —
and, unless the sequence is empty, exactly one member has null `prev` and
exactly one member has null `next`. -/
theorem C8_acyclic_unique_endpoints (h : Heap) (l : List Nat)
    (hr : Reachable h l) :
    (∀ k, walk h (l.length + k) l.head? = l) ∧
    (l = [] ∨
      ((∃ a ∈ l, (h a).prev = none ∧ ∀ b ∈ l, (h b).prev = none → b = a) ∧
       (∃ a ∈ l, (h a).next = none ∧ ∀ b ∈ l, (h b).next = none → b = a))) := by
  have hrep := repSeq_of_reachable h l hr
  constructor
  · exact dll_walk h l none hrep.2
  · cases hl : l with
    | nil => left; rfl
    | cons a rest =>
        right
        subst hl
        constructor
        · refine ⟨a, by simp, hrep.2.1, ?_⟩
          intro b hb hbp
          have hhd := repSeq_prev_none_head h _ hrep b hb hbp
          exact (Option.some.inj hhd).symm
        · obtain ⟨c, hc⟩ : ∃ c, (a :: rest).getLast? = some c := by
            cases hg : (a :: rest).getLast? with
            | none => exact absurd (List.getLast?_eq_none_iff.mp hg) (by simp)
            | some c => exact ⟨c, rfl⟩
          obtain ⟨lc, hlc⟩ := List.getLast?_eq_some_iff.mp hc
          refine ⟨c, List.mem_of_getLast?_eq_some hc, ?_, ?_⟩
          · have := dll_next_eq h c lc none []
              (by rw [show lc ++ c :: [] = lc ++ [c] from rfl, ← hlc]; exact hrep.2)
            simpa using this
          · intro b hb hbn
            have hlast := repSeq_next_none_last h _ hrep b hb hbn
            rw [hc] at hlast
            exact (Option.some.inj hlast).symm

theorem C8_witness :
    (∀ k, walk emptyHeap ([0].length + k) [0].head? = [0]) ∧
    ([0] = ([] : List Nat) ∨
      ((∃ a ∈ [0], (emptyHeap a).prev = none ∧
          ∀ b ∈ [0], (emptyHeap b).prev = none → b = a) ∧
       (∃ a ∈ [0], (emptyHeap a).next = none ∧
          ∀ b ∈ [0], (emptyHeap b).next = none → b = a))) :=
  C8_acyclic_unique_endpoints emptyHeap [0] (Reachable.head 0)

/-- C10: `remove` and `replaceWith` touch at most the operated node, the
replacement, and the node's two immediate neighbours — every other node's
fields are bit-for-bit unchanged — and the represented order of all other
entities is preserved (`l1 ++ l2` after a removal, `l1 ++ o :: l2` after a
replacement). -/
theorem C10_frame (h : Heap) (l1 l2 : List Nat) (e o : Nat)
    (hpe : (h e).prev ≠ some e) (hne : (h e).next ≠ some e)
    (hpo : (h e).prev ≠ some o) (hno : (h e).next ≠ some o)
    (hpn : ∀ p n, (h e).prev = some p → (h e).next = some n → p ≠ n)
    (heo : e ≠ o) :
    (∀ h', Issue.remove h e = some h' →
      ∀ x, x ≠ e → (h e).prev ≠ some x → (h e).next ≠ some x → h' x = h x) ∧
    (∀ h', Issue.replaceWith h e o = some h' →
      ∀ x, x ≠ e → x ≠ o → (h e).prev ≠ some x → (h e).next ≠ some x →
        h' x = h x) ∧
    (∀ h', repSeq h (l1 ++ e :: l2) → Issue.remove h e = some h' →
      repSeq h' (l1 ++ l2)) ∧
    (∀ h', repSeq h (l1 ++ e :: l2) → o ∉ l1 ++ e :: l2 →
      Issue.replaceWith h e o = some h' → repSeq h' (l1 ++ o :: l2)) := by
  refine ⟨?_, ?_, ?_, ?_⟩
  · intro h' hs x hxe hxp hxn
    have hl := Issue.linked_of_remove_some h e h' hs
    rw [Issue.remove_eq_some h e hl hpe hne hpn] at hs
    have hcf := (Option.some.inj hs).symm
    rw [hcf]; simp [hxe, hxp, hxn]
  · intro h' hs x hxe hxo hxp hxn
    obtain ⟨hop2, hon2⟩ := Issue.unlinked_of_replaceWith_some h e o h' hs
    rw [Issue.replaceWith_eq_some h e o hop2 hon2 heo hpe hpo hne hno hpn] at hs
    have hcf := (Option.some.inj hs).symm
    rw [hcf]; simp [hxe, hxo, hxp, hxn]
  · intro h' hrep hs
    exact repSeq_remove h h' l1 l2 e hrep hs
  · intro h' hrep hfresh hs
    exact repSeq_replaceWith h h' l1 l2 e o hrep hfresh hs

theorem C10_witness :
    (∀ h', Issue.remove heap3 1 = some h' →
      ∀ x, x ≠ 1 → (heap3 1).prev ≠ some x → (heap3 1).next ≠ some x →
        h' x = heap3 x) ∧
    (∀ h', Issue.replaceWith heap3 1 3 = some h' →
      ∀ x, x ≠ 1 → x ≠ 3 → (heap3 1).prev ≠ some x → (heap3 1).next ≠ some x →
        h' x = heap3 x) ∧
    (∀ h', repSeq heap3 ([0] ++ 1 :: [2]) → Issue.remove heap3 1 = some h' →
      repSeq h' ([0] ++ [2])) ∧
    (∀ h', repSeq heap3 ([0] ++ 1 :: [2]) → 3 ∉ [0] ++ 1 :: [2] →
      Issue.replaceWith heap3 1 3 = some h' → repSeq h' ([0] ++ 3 :: [2])) :=
  C10_frame heap3 [0] [2] 1 3 (by decide) (by decide) (by decide) (by decide)
    (fun p n hp hn => by
      rcases Option.some.inj hp with rfl
      rcases Option.some.inj hn with rfl
      decide)
    (by decide)

end Model
end TrenchBroom
